import Mathlib

/-!
Verification of the wingo-contrib script manager.

This file gives a shallow embedding of the program: the remote GitHub
tree (`githubTree`, `githubNode`), the local installation (`localTree`,
`localNode`), the in-memory script bundle (`contribScript`), the
description extraction (`readDescription`), the search matching, the
upgrade reconciliation (`upgradeCopy`, `upgrade`), the install flow
(`install`) and the executable-bit step (`chmodxPerm`).

Byte slices (Go `[]byte`) and strings are modelled as `List Nat`
(`Bytes`); an absent (`nil`) slice is modelled as `none : Option Bytes`.
Functions from the Go standard library (`bytes.Split`, `bytes.TrimSpace`,
`strings.Contains`, `strings.ToLower`, `filepath.Split`, `filepath.Clean`)
are external collaborators; they are modelled after their documented
behaviour (for `TrimSpace`/`ToLower` restricted to ASCII, which is all the
program relies on).
-/

namespace WingoContrib

/-- Go byte slices and strings are modelled as lists of bytes. -/
abbrev Bytes := List Nat

/-- The directory separator byte `/`. -/
def sepByte : Nat := 47

/-- The bytes of the string `README.md`. -/
def readmeName : Bytes := [82, 69, 65, 68, 77, 69, 46, 109, 100]

/-- Embeds `configName`: the config file of script `S` is named `S.cfg`
(the bytes `.cfg` appended to the script name). -/
def configName (scriptName : Bytes) : Bytes := scriptName ++ [46, 99, 102, 103]

/-- The bytes of the heading marker `Description\n===========\n`
(eleven `=` signs) hard-coded in `readDescription`. -/
def descMarker : Bytes :=
  [68, 101, 115, 99, 114, 105, 112, 116, 105, 111, 110, 10,
   61, 61, 61, 61, 61, 61, 61, 61, 61, 61, 61, 10]

/-- The bytes of the boundary `\n\n\n` hard-coded in `readDescription`. -/
def tripleNewline : Bytes := [10, 10, 10]

/-- Index of the first occurrence of the byte sequence `sep` in `xs`
(the position a Go `bytes.Index` would return, `none` when absent). -/
def firstIndexOfSeq (sep : Bytes) : Bytes → Option Nat
  | [] => if sep = [] then some 0 else none
  | x :: rest =>
      if sep.isPrefixOf (x :: rest) then some 0
      else (firstIndexOfSeq sep rest).map (· + 1)

/-- Fuelled worker for `splitSeq`; the fuel only bounds recursion depth
and `splitSeq` always supplies enough. -/
def splitSeqF (sep : Bytes) : Nat → Bytes → List Bytes
  | 0, xs => [xs]
  | fuel + 1, xs =>
      match firstIndexOfSeq sep xs with
      | none => [xs]
      | some i => xs.take i :: splitSeqF sep fuel (xs.drop (i + sep.length))

/-- Model of Go `bytes.Split` for a non-empty separator: the subslices
between consecutive instances of `sep`, scanned left to right.  (The
empty-separator case, unused by the program, returns the input whole.) -/
def splitSeq (sep xs : Bytes) : List Bytes :=
  if sep = [] then [xs] else splitSeqF sep (xs.length + 1) xs

/-- ASCII whitespace as recognised by Go `bytes.TrimSpace` on ASCII input:
space, tab, newline, vertical tab, form feed, carriage return. -/
def isSpaceByte (b : Nat) : Bool :=
  b = 32 || b = 9 || b = 10 || b = 11 || b = 12 || b = 13

/-- Model of Go `bytes.TrimSpace` (ASCII): strip leading and trailing
whitespace bytes. -/
def trimSpace (s : Bytes) : Bytes :=
  ((s.dropWhile isSpaceByte).reverse.dropWhile isSpaceByte).reverse

/-- Model of Go `strings.Contains s sub`: `sub` occurs as a contiguous
subsequence of `s` (always true for an empty `sub`). -/
def containsSeq (s sub : Bytes) : Bool := (firstIndexOfSeq sub s).isSome

/-- Model of Go `strings.ToLower` on one ASCII byte. -/
def toLowerByte (b : Nat) : Nat := if 65 ≤ b ∧ b ≤ 90 then b + 32 else b

/-- Model of Go `strings.ToLower` (ASCII): lower-case every byte. -/
def toLowerBytes (s : Bytes) : Bytes := s.map toLowerByte

/-- Embeds `readDescription` (`part_002` lines 199-204):
split the README at the `Description` heading, take element 1 (Go panics
with an index-out-of-range when the heading is absent, modelled as
`none`), split that segment at `\n\n\n`, take element 0, trim. -/
def readDescription (readme : Bytes) : Option Bytes :=
  let noDesc := splitSeq descMarker readme
  match noDesc[1]? with
  | none => none
  | some seg =>
      let noEx := splitSeq tripleNewline seg
      match noEx[0]? with
      | none => none
      | some d => some (trimSpace d)

/-- Embeds the matching test of `search` (`part_001` line 128):
`strings.Contains(strings.ToLower(script.desc), query)` — the description
is lower-cased, the query is used as given. -/
def searchMatch (desc query : Bytes) : Bool :=
  containsSeq (toLowerBytes desc) query

/-- Modelled from the spec: a case-insensitive substring match between the
description and the query (both sides lower-cased), stated for comparison
with `searchMatch`. -/
def ciContains (desc query : Bytes) : Bool :=
  containsSeq (toLowerBytes desc) (toLowerBytes query)

/-- Embeds the permission computation of `chmodx` (`part_001` lines
181-197): for i = 6, 3, 0, set bit i of the permission mode if it is not
already set. -/
def chmodxPerm (perms : Nat) : Nat :=
  [6, 3, 0].foldl
    (fun p i => if p &&& (1 <<< i) = 0 then p ||| (1 <<< i) else p) perms

/-- Byte-lexicographic strict order, the order of Go string comparison. -/
def bytesLt : Bytes → Bytes → Bool
  | [], [] => false
  | [], _ :: _ => true
  | _ :: _, [] => false
  | a :: as, b :: bs => a < b || (a = b && bytesLt as bs)

/-- Byte-lexicographic order (reflexive), used for sorting script names as
Go `sort.Sort(sort.StringSlice ...)` does. -/
def bytesLe : Bytes → Bytes → Bool
  | [], _ => true
  | _ :: _, [] => false
  | a :: as, b :: bs => a < b || (a = b && bytesLe as bs)

/-- `bytesLe` as a relation, for Mathlib's `insertionSort`. -/
def bytesLeR : Bytes → Bytes → Prop := fun a b => bytesLe a b = true

instance : DecidableRel bytesLeR := fun a b => by
  unfold bytesLeR; infer_instance

/-- Index of the last occurrence of `/` in a path, for `filepath.Split`. -/
def lastSlashIdx (p : Bytes) : Option Nat :=
  match firstIndexOfSeq [sepByte] p.reverse with
  | none => none
  | some j => some (p.length - 1 - j)

/-- Model of Go `filepath.Split`: the part up to and including the final
separator, and the remainder. -/
def filepathSplitRaw (p : Bytes) : Bytes × Bytes :=
  match lastSlashIdx p with
  | none => ([], p)
  | some i => (p.take (i + 1), p.drop (i + 1))

/-- Stack step of `filepath.Clean`: process path components, skipping
empty and `.` components and resolving `..` against the stack. -/
def cleanStack (rooted : Bool) : List Bytes → List Bytes → List Bytes
  | stack, [] => stack
  | stack, c :: rest =>
      if c = [] ∨ c = [46] then cleanStack rooted stack rest
      else if c = [46, 46] then
        match stack with
        | [] => if rooted then cleanStack rooted [] rest
                else cleanStack rooted [[46, 46]] rest
        | top :: s' =>
            if top = [46, 46] then cleanStack rooted ([46, 46] :: stack) rest
            else cleanStack rooted s' rest
      else cleanStack rooted (c :: stack) rest

/-- Model of Go `filepath.Clean` (Unix separators), in the standard
component-stack formulation of its documented behaviour: drop empty and
`.` components, resolve `..`, return `.` for an empty result. -/
def filepathClean (p : Bytes) : Bytes :=
  if p = [] then [46]
  else
    let rooted := p.head? = some sepByte
    let comps := (cleanStack rooted [] (splitSeq [sepByte] p)).reverse
    if rooted then sepByte :: (List.intercalate [sepByte] comps)
    else if comps = [] then [46]
    else List.intercalate [sepByte] comps

/-- Embeds the `githubNode` struct: one entry of the remote tree listing. -/
structure githubNode where
  Mode : Bytes
  NodeType : Bytes
  SHA : Bytes
  Path : Bytes
  Size : Int
  Url : Bytes
deriving DecidableEq

/-- Embeds the `githubTree` struct: the whole remote repository listing. -/
structure githubTree where
  SHA : Bytes
  Url : Bytes
  Tree : List githubNode
deriving DecidableEq

/-- Embeds `githubNode.isScript`: an entry is a script iff its path
contains exactly one `/` separator. -/
def isScript (node : githubNode) : Bool :=
  node.Path.count sepByte = 1

/-- Embeds `githubNode.split`: `filepath.Split` the path, then
`filepath.Clean` the directory part; yields (script name, file name). -/
def nodeSplit (node : githubNode) : Bytes × Bytes :=
  let p := filepathSplitRaw node.Path
  (filepathClean p.1, p.2)

/-- Embeds `githubTree.scriptExists`: some entry is a script whose split
name equals the given name. -/
def gtScriptExists (gt : githubTree) (scriptName : Bytes) : Bool :=
  gt.Tree.any (fun node => isScript node && (nodeSplit node).1 == scriptName)

/-- Embeds `githubTree.scripts`: collect the names of all script entries
into a set (deduplicated) and sort them ascending. -/
def scripts (gt : githubTree) : List Bytes :=
  List.insertionSort bytesLeR
    (((gt.Tree.filter isScript).map (fun n => (nodeSplit n).1)).dedup)

/-- Embeds the `localNode` struct: an installed script. -/
structure localNode where
  ScriptName : Bytes
  Path : Bytes
deriving DecidableEq

/-- Embeds `localTree`: the locally installed scripts. -/
abbrev localTree := List localNode

/-- Embeds `localTree.scriptExists`. -/
def ltScriptExists (lt : localTree) (scriptName : Bytes) : Bool :=
  lt.any (fun node => node.ScriptName == scriptName)

/-- Embeds the `contribScript` struct: the in-memory bundle of one
script.  `Files` models the Go `map[string][]byte`: a key mapped to
`none` models an entry holding a `nil` slice (an absent optional file). -/
structure contribScript where
  Name : Bytes
  Files : List (Bytes × Option Bytes)
deriving DecidableEq

/-- Go map read `m[k]`: the value of the entry for `k`, where both a
missing key and a `nil`-valued entry read as `nil` (`none`). -/
def mapGet : List (Bytes × Option Bytes) → Bytes → Option Bytes
  | [], _ => none
  | (k', v) :: rest, k => if k = k' then v else mapGet rest k

/-- Go map write `m[k] = v`: replace the entry for `k`, or add one. -/
def mapInsert (m : List (Bytes × Option Bytes)) (k : Bytes) (v : Option Bytes) :
    List (Bytes × Option Bytes) :=
  if m.any (fun p => p.1 == k) then
    m.map (fun p => if p.1 == k then (k, v) else p)
  else m ++ [(k, v)]

/-- Embeds `contribScript.source`: the bundle entry named after the
script. -/
def source (s : contribScript) : Option Bytes := mapGet s.Files s.Name

/-- Embeds `contribScript.config`: the bundle entry named `S.cfg`. -/
def config (s : contribScript) : Option Bytes :=
  mapGet s.Files (configName s.Name)

/-- A remote file fetch, the external collaborator behind
`downloadFile`: given script name and file name it yields the body bytes
(HTTP status below 400) or `none` (status 400 or above — the file is
treated as absent, not as a fatal error). -/
abbrev Fetch := Bytes → Bytes → Option Bytes

/-- Go `fmt` rendering of a possibly-`nil` byte slice with `%s`: a `nil`
slice prints as the empty string. -/
def optBytesFormat : Option Bytes → Bytes
  | none => []
  | some b => b

/-- The file collection loop of `githubTree.download` (`part_002` lines
241-246): for every tree entry whose split script name matches, store the
fetched bytes (possibly `nil`) under the split file name. -/
def downloadFiles (gt : githubTree) (scriptName : Bytes) (fetch : Fetch) :
    List (Bytes × Option Bytes) :=
  gt.Tree.foldl
    (fun m node =>
      let p := nodeSplit node
      if p.1 = scriptName then mapInsert m p.2 (fetch scriptName p.2) else m)
    []

/-- Embeds `githubTree.download` (`part_002` lines 239-256): collect all
files of the script, then fail fatally (corrupt repository) when the
`README.md` entry or the entry named after the script reads as `nil`. -/
def download (gt : githubTree) (scriptName : Bytes) (fetch : Fetch) :
    Except String contribScript :=
  let s : contribScript := ⟨scriptName, downloadFiles gt scriptName fetch⟩
  if mapGet s.Files readmeName = none then
    .error "CORRUPT REPOSITORY: No README.md file found."
  else if source s = none then
    .error "CORRUPT REPOSITORY: No script file found."
  else .ok s

/-- The local script directory, modelled as a map from file name to the
bytes of the file (`none` = no such file). -/
abbrev Fs := Bytes → Option Bytes

/-- Writing one file into the local script directory
(`os.Create` + `io.Copy`: create or overwrite). -/
def fsInsert (fs : Fs) (k : Bytes) (v : Bytes) : Fs :=
  fun k' => if k' = k then some v else fs k'

/-- Embeds `localNode.hasConfig`: `os.Stat` on the config file succeeds. -/
def fsHas (fs : Fs) (k : Bytes) : Bool := (fs k).isSome

/-- The fatal message of `copyFile` when a bundle entry reads as `nil`. -/
def bugMsg : String := "BUG: Could not find file in memory."

/-- The abort report of `upgrade` when both configs exist and differ. -/
def manualMsg : String := "MANUAL INTERVENTION REQUIRED!"

/-- A sequence of `copyFile` calls (`part_002` lines 210-225) on the
named bundle entries: each entry that reads as `nil` stops the program
fatally (`bugMsg`), leaving the files already copied in place; otherwise
the destination file is created or overwritten with the entry's bytes. -/
def runCopy (files : List (Bytes × Option Bytes)) (names : List Bytes) (fs : Fs) :
    Fs × Option String :=
  match names with
  | [] => (fs, none)
  | f :: rest =>
      match mapGet files f with
      | none => (fs, some bugMsg)
      | some c => runCopy files rest (fsInsert fs f c)

/-- Embeds `contribScript.copyAll`: `copyFile` every bundle entry. -/
def copyAll (s : contribScript) (fs : Fs) : Fs × Option String :=
  runCopy s.Files (s.Files.map Prod.fst) fs

/-- Embeds the reconciliation step of `upgrade` (`part_001` lines
71-103), after the existence guards and the download: with the
skip-config flag, copy every bundle entry except the config file;
otherwise copy everything when the local installation has no config, or
the remote bundle has no config, or both configs are byte-for-byte equal;
otherwise copy nothing and report that manual intervention is required.
(The short-circuit order of the Go condition guarantees that
`lnode.readConfig()` is only read when the local config exists.) -/
def upgradeCopy (skip : Bool) (s : contribScript) (fs : Fs) : Fs × Option String :=
  if skip then
    runCopy s.Files
      ((s.Files.map Prod.fst).filter (fun f => decide (f ≠ configName s.Name))) fs
  else if fsHas fs (configName s.Name) = false
      ∨ config s = none
      ∨ fs (configName s.Name) = config s then
    copyAll s fs
  else (fs, some manualMsg)

/-- Embeds `upgrade` (`part_001` lines 44-104): fatal when the script is
not in the remote tree or not installed locally, otherwise download and
reconcile.  The second component is the fatal/abort message, `none` on
success; the first is the resulting local script directory. -/
def upgrade (gt : githubTree) (lt : localTree) (skip : Bool)
    (scriptName : Bytes) (fetch : Fetch) (fs : Fs) : Fs × Option String :=
  if gtScriptExists gt scriptName = false then
    (fs, some "Script does not exist in wingo-contrib.")
  else if ltScriptExists lt scriptName = false then
    (fs, some "Script is not installed. Please add it with the install command first.")
  else
    match download gt scriptName fetch with
    | .error e => (fs, some e)
    | .ok s => upgradeCopy skip s fs

/-- A filesystem effect of `install`: directory creation, file write, or
the executable-bit change. -/
inductive Eff where
  | mkdir : Bytes → Eff
  | write : Bytes → Bytes → Eff
  | chmod : Bytes → Eff
deriving DecidableEq

/-- `copyFile` calls as an effect trace: the writes performed before a
`nil` entry stops the program. -/
def runCopyEff (files : List (Bytes × Option Bytes)) :
    List Bytes → List Eff × Option String
  | [] => ([], none)
  | f :: rest =>
      match mapGet files f with
      | none => ([], some bugMsg)
      | some c =>
          let r := runCopyEff files rest
          (Eff.write f c :: r.1, r.2)

/-- Embeds `install` (`part_001` lines 15-42) as an effect trace: fatal
with no effects when the script is not remote or already installed; else
create the script directory, download (fatal on corruption), copy every
bundle entry, and finally set the executable bits on the script file. -/
def install (gt : githubTree) (lt : localTree) (scriptName : Bytes)
    (fetch : Fetch) : List Eff × Option String :=
  if gtScriptExists gt scriptName = false then
    ([], some "Script does not exist in wingo-contrib.")
  else if ltScriptExists lt scriptName = true then
    ([], some "Script is already installed. Please use the upgrade command to update.")
  else
    match download gt scriptName fetch with
    | .error e => ([Eff.mkdir scriptName], some e)
    | .ok s =>
        let r := runCopyEff s.Files (s.Files.map Prod.fst)
        match r.2 with
        | some e => (Eff.mkdir scriptName :: r.1, some e)
        | none => (Eff.mkdir scriptName :: r.1 ++ [Eff.chmod scriptName], none)

/-- Embeds `info` (`part_001` lines 135-149): fatal when the script is
not in the remote tree; otherwise print a newline, the README fetch
result rendered with `%s` (a `nil` body prints as empty), and a newline. -/
def info (gt : githubTree) (scriptName : Bytes) (fetch : Fetch) :
    Except String Bytes :=
  if gtScriptExists gt scriptName = false then
    .error "Script does not exist in wingo-contrib."
  else
    .ok ([10] ++ optBytesFormat (fetch scriptName readmeName) ++ [10])

/-! Concrete example values used to evaluate the definitions. -/

/-- The bytes of the script name `foo`. -/
def fooName : Bytes := [102, 111, 111]

/-- The bytes of the optional file name `extra.txt`. -/
def extraName : Bytes := [101, 120, 116, 114, 97, 46, 116, 120, 116]

/-- A tree node carrying only a path, the one field the program reads. -/
def mkNode (p : Bytes) : githubNode := ⟨[], [], [], p, 0, []⟩

/-- An empty remote tree. -/
def gt0 : githubTree := ⟨[], [], []⟩

/-- A remote tree holding a single script `foo` with one file `b`. -/
def gtW : githubTree := ⟨[], [], [mkNode (fooName ++ [sepByte] ++ [98])]⟩

/-- A remote tree for script `foo` listing `README.md`, the source file
`foo`, and an optional file `extra.txt`. -/
def gtC4 : githubTree :=
  ⟨[], [],
    [mkNode (fooName ++ [sepByte] ++ readmeName),
     mkNode (fooName ++ [sepByte] ++ fooName),
     mkNode (fooName ++ [sepByte] ++ extraName)]⟩

/-- A fetch where every file resolves except `extra.txt`, whose request
comes back with HTTP status 400 or above (absent). -/
def fetchC4 : Fetch := fun _ fname => if fname = extraName then none else some [1]

/-- The bundle `download` builds from `gtC4` with `fetchC4`: the absent
optional file is recorded as an absent (`nil`) entry. -/
def sC4 : contribScript :=
  ⟨fooName, [(readmeName, some [1]), (fooName, some [1]), (extraName, none)]⟩

/-- An empty local script directory. -/
def emptyFs : Fs := fun _ => none

/-- A bundle for script `foo` with a README, a source file and one more
file, and no config file. -/
def sW : contribScript :=
  ⟨fooName, [(readmeName, some [1]), (fooName, some [2]), (extraName, some [3])]⟩

/-- A bundle for script `foo` that also carries a config file `foo.cfg`. -/
def sWcfg : contribScript :=
  ⟨fooName,
    [(readmeName, some [1]), (fooName, some [2]), (configName fooName, some [9])]⟩

/-- A local script directory holding a config file `foo.cfg` with content
differing from the one in `sWcfg`. -/
def fsCfg : Fs := fun k => if k = configName fooName then some [8] else none

/-- A README used as a counterexample: the `Description` heading, the
byte `a`, the heading a second time, then `b`, a triple newline, and `c`. -/
def cxReadme : Bytes := descMarker ++ [97] ++ descMarker ++ [98, 10, 10, 10, 99]

/-- A README of the expected shape: the byte `x`, the `Description`
heading, the text ` hi`, a triple newline, then `z`. -/
def wReadme : Bytes :=
  [120] ++ descMarker ++ [32, 104, 105] ++ [10, 10, 10] ++ [122]

/-! Support lemmas. -/

theorem toLowerBytes_id :
    ∀ (query : Bytes), (∀ b ∈ query, ¬(65 ≤ b ∧ b ≤ 90)) →
      toLowerBytes query = query := by
  intro query
  induction query with
  | nil => intro _; rfl
  | cons b bs ih =>
    intro hq
    have hb := hq b (by simp)
    have hbs := ih (fun c hc => hq c (by simp [hc]))
    simp only [toLowerBytes, List.map_cons] at hbs ⊢
    rw [hbs]
    congr 1
    unfold toLowerByte
    rw [if_neg hb]

theorem containsSeq_nil (s : Bytes) : containsSeq s [] = true := by
  cases s with
  | nil => rfl
  | cons x rest => rfl

theorem prefixOf_length {sep ys : Bytes} (h : sep.isPrefixOf ys = true) :
    sep.length ≤ ys.length := by
  induction sep generalizing ys with
  | nil => simp
  | cons a as ih =>
    cases ys with
    | nil => simp [List.isPrefixOf] at h
    | cons b bs =>
      simp only [List.isPrefixOf, Bool.and_eq_true] at h
      simpa using ih h.2

theorem firstIndexOfSeq_le {sep xs : Bytes} {i : Nat}
    (h : firstIndexOfSeq sep xs = some i) : i + sep.length ≤ xs.length := by
  induction xs generalizing i with
  | nil =>
    by_cases hsep : sep = []
    · subst hsep
      simp [firstIndexOfSeq] at h
      omega
    · simp [firstIndexOfSeq, hsep] at h
  | cons x rest ih =>
    simp only [firstIndexOfSeq] at h
    by_cases hp : sep.isPrefixOf (x :: rest) = true
    · rw [if_pos hp] at h
      have hi : (0 : Nat) = i := by injection h
      have hlen := prefixOf_length hp
      simp only [List.length_cons] at hlen ⊢
      omega
    · rw [if_neg hp] at h
      simp only [Option.map_eq_some'] at h
      obtain ⟨j, hj, hij⟩ := h
      have := ih hj
      simp only [List.length_cons]
      omega

theorem splitSeqF_fuel {sep : Bytes} (hsep : sep ≠ []) :
    ∀ (fuel₁ : Nat) {fuel₂ : Nat} {xs : Bytes}, xs.length < fuel₁ →
      xs.length < fuel₂ → splitSeqF sep fuel₁ xs = splitSeqF sep fuel₂ xs := by
  intro fuel₁
  induction fuel₁ with
  | zero => intro fuel₂ xs h1 _; omega
  | succ f ih =>
    intro fuel₂ xs h1 h2
    cases fuel₂ with
    | zero => omega
    | succ f2 =>
      unfold splitSeqF
      cases hfi : firstIndexOfSeq sep xs with
      | none => rfl
      | some i =>
        have hle := firstIndexOfSeq_le hfi
        have hsl : 0 < sep.length := List.length_pos.mpr hsep
        simp only []
        congr 1
        exact ih (by simp; omega) (by simp; omega)

theorem splitSeq_of_none {sep xs : Bytes} (hsep : sep ≠ [])
    (h : firstIndexOfSeq sep xs = none) : splitSeq sep xs = [xs] := by
  unfold splitSeq splitSeqF
  simp [hsep, h]

theorem splitSeq_of_some {sep xs : Bytes} {i : Nat} (hsep : sep ≠ [])
    (h : firstIndexOfSeq sep xs = some i) :
    splitSeq sep xs = xs.take i :: splitSeq sep (xs.drop (i + sep.length)) := by
  have hle := firstIndexOfSeq_le h
  have hsl : 0 < sep.length := List.length_pos.mpr hsep
  unfold splitSeq
  simp only [hsep, if_false]
  conv_lhs => rw [splitSeqF]
  rw [h]
  show xs.take i :: splitSeqF sep xs.length (xs.drop (i + sep.length)) =
    xs.take i ::
      splitSeqF sep ((xs.drop (i + sep.length)).length + 1) (xs.drop (i + sep.length))
  congr 1
  exact @splitSeqF_fuel sep hsep xs.length
    ((xs.drop (i + sep.length)).length + 1) (xs.drop (i + sep.length))
    (by simp only [List.length_drop]; omega) (by omega)

theorem mapGet_mem_ne_none :
    ∀ (files : List (Bytes × Option Bytes)), (∀ p ∈ files, p.2 ≠ none) →
      ∀ k ∈ files.map Prod.fst, mapGet files k ≠ none := by
  intro files
  induction files with
  | nil =>
    intro _ k hk
    simp at hk
  | cons p rest ih =>
    intro hp k hk
    obtain ⟨k', v⟩ := p
    by_cases h : k = k'
    · subst h
      simpa [mapGet] using hp (k, v) (by simp)
    · have hk2 : k ∈ rest.map Prod.fst := by
        rw [List.map_cons] at hk
        rcases List.mem_cons.mp hk with h1 | h2
        · exact absurd h1 h
        · exact h2
      simp only [mapGet, if_neg h]
      exact ih (fun q hq => hp q (by simp [hq])) k hk2

theorem runCopy_spec {files : List (Bytes × Option Bytes)} :
    ∀ {names : List Bytes} (fs : Fs), names.Nodup →
      (∀ f ∈ names, mapGet files f ≠ none) →
      (runCopy files names fs).2 = none ∧
      ∀ k, (runCopy files names fs).1 k =
        if k ∈ names then mapGet files k else fs k := by
  intro names
  induction names with
  | nil =>
    intro fs _ _
    exact ⟨rfl, by intro k; simp [runCopy]⟩
  | cons f rest ih =>
    intro fs hnd hall
    have hf := hall f (by simp)
    cases hc : mapGet files f with
    | none => exact absurd hc hf
    | some c =>
      have hnd' : rest.Nodup := (List.nodup_cons.mp hnd).2
      have hfrest : f ∉ rest := (List.nodup_cons.mp hnd).1
      have hall' : ∀ g ∈ rest, mapGet files g ≠ none :=
        fun g hg => hall g (by simp [hg])
      obtain ⟨h1, h2⟩ := ih (fsInsert fs f c) hnd' hall'
      constructor
      · simpa [runCopy, hc] using h1
      · intro k
        simp only [runCopy, hc]
        rw [h2 k]
        by_cases hk : k ∈ rest
        · simp [hk]
        · by_cases hkf : k = f
          · subst hkf
            simp [hk, fsInsert, hc]
          · simp [hk, hkf, fsInsert]

theorem bytesLe_total (a b : Bytes) : bytesLe a b = true ∨ bytesLe b a = true := by
  induction a generalizing b with
  | nil => left; rfl
  | cons x as ih =>
    cases b with
    | nil => right; rfl
    | cons y bs =>
      rcases Nat.lt_trichotomy x y with h | h | h
      · left; simp [bytesLe, h]
      · subst h
        rcases ih bs with h2 | h2
        · left; simp [bytesLe, h2]
        · right; simp [bytesLe, h2]
      · right; simp [bytesLe, h]

theorem bytesLe_trans {a b c : Bytes} (h1 : bytesLe a b = true)
    (h2 : bytesLe b c = true) : bytesLe a c = true := by
  induction a generalizing b c with
  | nil => rfl
  | cons x as ih =>
    cases b with
    | nil => simp [bytesLe] at h1
    | cons y bs =>
      cases c with
      | nil => simp [bytesLe] at h2
      | cons z cs =>
        simp only [bytesLe, Bool.or_eq_true, Bool.and_eq_true,
          decide_eq_true_eq] at h1 h2 ⊢
        rcases h1 with h1 | ⟨hxy, h1⟩
        · rcases h2 with h2 | ⟨hyz, h2⟩
          · left; omega
          · left; omega
        · rcases h2 with h2 | ⟨hyz, h2⟩
          · left; omega
          · right; exact ⟨by omega, ih h1 h2⟩

theorem bytesLt_of_le_ne {a b : Bytes} (h : bytesLe a b = true) (hne : a ≠ b) :
    bytesLt a b = true := by
  induction a generalizing b with
  | nil =>
    cases b with
    | nil => exact absurd rfl hne
    | cons y bs => rfl
  | cons x as ih =>
    cases b with
    | nil => simp [bytesLe] at h
    | cons y bs =>
      simp only [bytesLe, Bool.or_eq_true, Bool.and_eq_true,
        decide_eq_true_eq] at h
      simp only [bytesLt, Bool.or_eq_true, Bool.and_eq_true,
        decide_eq_true_eq]
      rcases h with h | ⟨hxy, h⟩
      · left; exact h
      · subst hxy
        right
        refine ⟨rfl, ih h ?_⟩
        intro hEq
        exact hne (by rw [hEq])

instance : IsTotal Bytes bytesLeR := ⟨fun a b => bytesLe_total a b⟩

instance : IsTrans Bytes bytesLeR := ⟨fun _ _ _ h1 h2 => bytesLe_trans h1 h2⟩

theorem or_two_pow_of_testBit {p : Nat} {k : Nat} (h : p.testBit k = true) :
    p ||| 2 ^ k = p := by
  apply Nat.eq_of_testBit_eq
  intro i
  rw [Nat.testBit_or]
  rcases eq_or_ne k i with hik | hik
  · subst hik; simp [h, Nat.testBit_two_pow_self]
  · simp [Nat.testBit_two_pow_of_ne hik]

theorem chmodx_step (q k : Nat) :
    (if q &&& (1 <<< k) = 0 then q ||| (1 <<< k) else q) = q ||| (1 <<< k) := by
  split
  · rfl
  · next h =>
    rw [Nat.shiftLeft_eq, one_mul] at h ⊢
    cases hb : q.testBit k with
    | false =>
      exfalso
      apply h
      rw [Nat.and_two_pow, hb]
      simp
    | true => rw [or_two_pow_of_testBit hb]

theorem chmodxPerm_eq (p : Nat) : chmodxPerm p = p ||| 73 := by
  simp only [chmodxPerm, List.foldl_cons, List.foldl_nil]
  rw [chmodx_step, chmodx_step, chmodx_step, Nat.or_assoc, Nat.or_assoc]
  congr 1

/-! Claim theorems. -/

/-- C6: the executable-bit step of install is additive: for every prior
permission mode, the resulting mode has the owner (bit 6), group (bit 3)
and other (bit 0) execute bits set, and every other bit — in particular
all read/write bits — unchanged. -/
theorem chmodx_additive (p : Nat) :
    (chmodxPerm p).testBit 6 = true ∧ (chmodxPerm p).testBit 3 = true ∧
    (chmodxPerm p).testBit 0 = true ∧
    ∀ i : Nat, i ≠ 6 → i ≠ 3 → i ≠ 0 → (chmodxPerm p).testBit i = p.testBit i := by
  have h6 : (73 : Nat).testBit 6 = true := by decide
  have h3 : (73 : Nat).testBit 3 = true := by decide
  have h0 : (73 : Nat).testBit 0 = true := by decide
  simp only [chmodxPerm_eq, Nat.testBit_or, h6, h3, h0, Bool.or_true]
  refine ⟨trivial, trivial, trivial, ?_⟩
  intro i hi6 hi3 hi0
  have h73 : (73 : Nat).testBit i = false := by
    rcases Nat.lt_or_ge i 7 with h | h
    · interval_cases i
      · exact absurd rfl hi0
      · decide
      · decide
      · exact absurd rfl hi3
      · decide
      · decide
      · exact absurd rfl hi6
    · refine Nat.testBit_lt_two_pow ?_
      calc (73 : Nat) < 2 ^ 7 := by norm_num
        _ ≤ 2 ^ i := Nat.pow_le_pow_right (by norm_num) h
  rw [h73, Bool.or_false]

/-- Witness for C6 at the prior mode `0o640` (= 416): execute bits are
added and a read/write bit (bit 4, group read) is unchanged. -/
theorem chmodx_additive_witness :
    (chmodxPerm 416).testBit 6 = true ∧ (chmodxPerm 416).testBit 3 = true ∧
    (chmodxPerm 416).testBit 0 = true ∧
    (chmodxPerm 416).testBit 4 = (416 : Nat).testBit 4 := by
  obtain ⟨a, b, c, d⟩ := chmodx_additive 416
  exact ⟨a, b, c, d 4 (by decide) (by decide) (by decide)⟩

/-- C2: `readDescription` on a README that does not contain the
`Description` heading reaches the `noDesc[1]` access on a one-element
slice — the Go index-out-of-range panic, modelled as `none`.  The code
therefore crashes instead of yielding the defined no-description
behaviour the claim requires. -/
theorem readDescription_missing_heading (readme : Bytes)
    (h : containsSeq readme descMarker = false) :
    readDescription readme = none := by
  have hidx : firstIndexOfSeq descMarker readme = none := by
    unfold containsSeq at h
    cases hfi : firstIndexOfSeq descMarker readme with
    | none => rfl
    | some i => rw [hfi] at h; simp at h
  have hm : descMarker ≠ [] := by decide
  unfold readDescription
  rw [splitSeq_of_none hm hidx]
  rfl

/-- Witness for C2: the empty README lacks the heading and hits the
panic branch. -/
theorem readDescription_missing_heading_witness :
    containsSeq [] descMarker = false ∧ readDescription [] = none :=
  ⟨by decide, readDescription_missing_heading [] (by decide)⟩

/-- C10: for a script present in the remote tree, `info` prints a
newline, whatever the README fetch returned rendered with `%s` (a `nil`
body prints as empty), and a newline, and terminates successfully — in
particular an absent README (HTTP status 400 or above) prints an empty
body rather than reporting an error. -/
theorem info_prints_readme (gt : githubTree) (scriptName : Bytes)
    (fetch : Fetch) (h : gtScriptExists gt scriptName = true) :
    info gt scriptName fetch =
      .ok ([10] ++ optBytesFormat (fetch scriptName readmeName) ++ [10]) ∧
    (fetch scriptName readmeName = none →
      info gt scriptName fetch = .ok [10, 10]) := by
  constructor
  · unfold info
    rw [h]
    simp
  · intro hn
    unfold info
    rw [h, hn]
    simp [optBytesFormat]

/-- Witness for C10: a tree containing script `foo`, and a fetch whose
README request comes back absent: `info` succeeds with an empty body. -/
theorem info_prints_readme_witness :
    gtScriptExists gtW fooName = true ∧
    info gtW fooName (fun _ _ => none) = .ok [10, 10] :=
  ⟨by decide,
   (info_prints_readme gtW fooName (fun _ _ => none) (by decide)).2 rfl⟩

/-- Counterexample for C3: the description `a` matches the query `A`
case-insensitively, but the search code — which lower-cases only the
description, not the query — does not print it. -/
theorem search_not_case_insensitive :
    searchMatch [97] [65] = false ∧ ciContains [97] [65] = true := by
  constructor <;> decide

/-- C3 (amended): the search command prints a script iff the lower-cased
description contains the query verbatim; since the query itself is not
lower-cased, this coincides with case-insensitive matching exactly when
the query contains no uppercase ASCII letter, and the empty query
matches every script. -/
theorem search_match_lowercase_query (desc query : Bytes)
    (hq : ∀ b ∈ query, ¬(65 ≤ b ∧ b ≤ 90)) :
    searchMatch desc query = ciContains desc query ∧
    searchMatch desc [] = true := by
  constructor
  · unfold searchMatch ciContains
    rw [toLowerBytes_id query hq]
  · unfold searchMatch
    exact containsSeq_nil _

/-- Witness for C3 at the description `ab` and the lowercase query `b`. -/
theorem search_match_lowercase_query_witness :
    searchMatch [97, 98] [98] = ciContains [97, 98] [98] ∧
    searchMatch [97, 98] [] = true :=
  search_match_lowercase_query [97, 98] [98] (by decide)

/-- C5: the existence guards of `install` and `upgrade` are checked
before any filesystem action: a script missing from the remote tree
makes both commands terminate fatally with no effects, a script already
installed makes `install` terminate fatally with no effects, and a
script not installed makes `upgrade` terminate fatally with the local
directory untouched. -/
theorem guards_no_side_effects (gt : githubTree) (lt : localTree)
    (scriptName : Bytes) (fetch : Fetch) (skip : Bool) (fs : Fs) :
    (gtScriptExists gt scriptName = false →
      install gt lt scriptName fetch =
        ([], some "Script does not exist in wingo-contrib.") ∧
      upgrade gt lt skip scriptName fetch fs =
        (fs, some "Script does not exist in wingo-contrib.")) ∧
    (gtScriptExists gt scriptName = true → ltScriptExists lt scriptName = true →
      install gt lt scriptName fetch =
        ([], some "Script is already installed. Please use the upgrade command to update.")) ∧
    (gtScriptExists gt scriptName = true → ltScriptExists lt scriptName = false →
      upgrade gt lt skip scriptName fetch fs =
        (fs, some "Script is not installed. Please add it with the install command first.")) := by
  refine ⟨fun h => ⟨?_, ?_⟩, fun h1 h2 => ?_, fun h1 h2 => ?_⟩
  · unfold install
    rw [h]
    simp
  · unfold upgrade
    rw [h]
    simp
  · unfold install
    rw [h1, h2]
    simp
  · unfold upgrade
    rw [h1, h2]
    simp

/-- Witness for C5: `foo` is absent from the empty tree (no effects from
either command), present in `gtW` but already installed (install
refuses), and present in `gtW` but not installed (upgrade refuses). -/
theorem guards_no_side_effects_witness :
    (install gt0 [] fooName (fun _ _ => none) =
      ([], some "Script does not exist in wingo-contrib.") ∧
     upgrade gt0 [] false fooName (fun _ _ => none) emptyFs =
      (emptyFs, some "Script does not exist in wingo-contrib.")) ∧
    install gtW [⟨fooName, fooName⟩] fooName (fun _ _ => none) =
      ([], some "Script is already installed. Please use the upgrade command to update.") ∧
    upgrade gtW [] false fooName (fun _ _ => none) emptyFs =
      (emptyFs, some "Script is not installed. Please add it with the install command first.") :=
  ⟨(guards_no_side_effects gt0 [] fooName (fun _ _ => none) false emptyFs).1
      (by decide),
   (guards_no_side_effects gtW [⟨fooName, fooName⟩] fooName (fun _ _ => none)
      false emptyFs).2.1 (by decide) (by decide),
   (guards_no_side_effects gtW [] fooName (fun _ _ => none) false
      emptyFs).2.2 (by decide) (by decide)⟩

/-- C1: the upgrade reconciliation, in priority order, for a bundle with
distinct keys all of whose entries are present: with the skip-config flag
every bundle file except the config `S.cfg` is copied and the local
config is untouched; otherwise, when the local installation has no
config, or the remote bundle has no config, or the two configs are
byte-for-byte equal, every bundle file is copied (the config included);
otherwise the upgrade aborts with zero files written, reporting that
manual intervention is required. -/
theorem upgrade_reconciliation (skip : Bool) (s : contribScript) (fs : Fs)
    (hnd : (s.Files.map Prod.fst).Nodup)
    (hp : ∀ p ∈ s.Files, p.2 ≠ none) :
    (skip = true →
      (upgradeCopy skip s fs).2 = none ∧
      (upgradeCopy skip s fs).1 (configName s.Name) = fs (configName s.Name) ∧
      ∀ f ∈ s.Files.map Prod.fst, f ≠ configName s.Name →
        (upgradeCopy skip s fs).1 f = mapGet s.Files f) ∧
    (skip = false →
      (fsHas fs (configName s.Name) = false ∨ config s = none ∨
        fs (configName s.Name) = config s) →
      (upgradeCopy skip s fs).2 = none ∧
      ∀ f ∈ s.Files.map Prod.fst,
        (upgradeCopy skip s fs).1 f = mapGet s.Files f) ∧
    (skip = false → fsHas fs (configName s.Name) = true → config s ≠ none →
      fs (configName s.Name) ≠ config s →
      upgradeCopy skip s fs = (fs, some manualMsg)) := by
  refine ⟨fun hskip => ?_, fun hskip hcond => ?_, fun hskip h1 h2 h3 => ?_⟩
  · subst hskip
    have hnames :
        ((s.Files.map Prod.fst).filter
          (fun f => decide (f ≠ configName s.Name))).Nodup := hnd.filter _
    have hallp : ∀ f ∈ (s.Files.map Prod.fst).filter
        (fun f => decide (f ≠ configName s.Name)), mapGet s.Files f ≠ none := by
      intro f hf
      exact mapGet_mem_ne_none s.Files hp f (List.mem_of_mem_filter hf)
    obtain ⟨hsnd, hget⟩ :=
      @runCopy_spec s.Files
        ((s.Files.map Prod.fst).filter (fun f => decide (f ≠ configName s.Name)))
        fs hnames hallp
    have hrep : upgradeCopy true s fs =
        runCopy s.Files
          ((s.Files.map Prod.fst).filter (fun f => decide (f ≠ configName s.Name)))
          fs := by
      unfold upgradeCopy
      rw [if_pos rfl]
    refine ⟨?_, ?_, ?_⟩
    · rw [hrep]; exact hsnd
    · rw [hrep, hget]
      have hni : configName s.Name ∉ (s.Files.map Prod.fst).filter
          (fun f => decide (f ≠ configName s.Name)) := by
        intro hmem
        have := List.of_mem_filter hmem
        simp at this
      rw [if_neg hni]
    · intro f hf hfc
      rw [hrep, hget]
      have hin : f ∈ (s.Files.map Prod.fst).filter
          (fun f => decide (f ≠ configName s.Name)) :=
        List.mem_filter.mpr ⟨hf, by simp [hfc]⟩
      rw [if_pos hin]
  · subst hskip
    have hallp : ∀ f ∈ s.Files.map Prod.fst, mapGet s.Files f ≠ none :=
      fun f hf => mapGet_mem_ne_none s.Files hp f hf
    obtain ⟨hsnd, hget⟩ := @runCopy_spec s.Files (s.Files.map Prod.fst) fs hnd hallp
    have hrep : upgradeCopy false s fs =
        runCopy s.Files (s.Files.map Prod.fst) fs := by
      unfold upgradeCopy copyAll
      rw [if_neg (by simp), if_pos hcond]
    refine ⟨by rw [hrep]; exact hsnd, ?_⟩
    intro f hf
    rw [hrep, hget, if_pos hf]
  · subst hskip
    have hnc : ¬(fsHas fs (configName s.Name) = false ∨ config s = none ∨
        fs (configName s.Name) = config s) := by
      rintro (hc | hc | hc)
      · rw [h1] at hc; exact absurd hc (by simp)
      · exact h2 hc
      · exact h3 hc
    unfold upgradeCopy
    rw [if_neg (by simp), if_neg hnc]

/-- Witness for C1: skip-config on the bundle `sWcfg` over a local
directory whose config differs — the config is untouched and the README
is copied; without the flag and with the differing config the upgrade
aborts unchanged. -/
theorem upgrade_reconciliation_witness :
    ((upgradeCopy true sWcfg fsCfg).2 = none ∧
     (upgradeCopy true sWcfg fsCfg).1 (configName fooName) =
       fsCfg (configName fooName) ∧
     (upgradeCopy true sWcfg fsCfg).1 readmeName = mapGet sWcfg.Files readmeName) ∧
    upgradeCopy false sWcfg fsCfg = (fsCfg, some manualMsg) := by
  obtain ⟨hskip, _, habort⟩ :=
    upgrade_reconciliation true sWcfg fsCfg (by decide) (by decide)
  obtain ⟨h2skip, _, h2abort⟩ :=
    upgrade_reconciliation false sWcfg fsCfg (by decide) (by decide)
  obtain ⟨ha, hb, hc⟩ := hskip rfl
  exact ⟨⟨ha, hb, hc readmeName (by decide) (by decide)⟩,
    h2abort rfl (by decide) (by decide) (by decide)⟩

/-- C8: with identical remote content and the skip-config flag, running
the upgrade copy twice succeeds both times, the second run leaves every
file exactly as the first run did (byte-identical), and neither run
modifies the local config file. -/
theorem upgrade_skip_idempotent (s : contribScript) (fs : Fs)
    (hnd : (s.Files.map Prod.fst).Nodup)
    (hp : ∀ p ∈ s.Files, p.2 ≠ none) :
    (upgradeCopy true s fs).2 = none ∧
    (upgradeCopy true s ((upgradeCopy true s fs).1)).2 = none ∧
    (∀ f, (upgradeCopy true s ((upgradeCopy true s fs).1)).1 f =
      (upgradeCopy true s fs).1 f) ∧
    (upgradeCopy true s fs).1 (configName s.Name) = fs (configName s.Name) ∧
    (upgradeCopy true s ((upgradeCopy true s fs).1)).1 (configName s.Name) =
      fs (configName s.Name) := by
  have hnames :
      ((s.Files.map Prod.fst).filter
        (fun f => decide (f ≠ configName s.Name))).Nodup := hnd.filter _
  have hallp : ∀ f ∈ (s.Files.map Prod.fst).filter
      (fun f => decide (f ≠ configName s.Name)), mapGet s.Files f ≠ none := by
    intro f hf
    exact mapGet_mem_ne_none s.Files hp f (List.mem_of_mem_filter hf)
  have hrep : ∀ g : Fs, upgradeCopy true s g =
      runCopy s.Files
        ((s.Files.map Prod.fst).filter (fun f => decide (f ≠ configName s.Name)))
        g := by
    intro g
    unfold upgradeCopy
    rw [if_pos rfl]
  obtain ⟨h1snd, h1get⟩ :=
    @runCopy_spec s.Files
      ((s.Files.map Prod.fst).filter (fun f => decide (f ≠ configName s.Name)))
      fs hnames hallp
  obtain ⟨h2snd, h2get⟩ :=
    @runCopy_spec s.Files
      ((s.Files.map Prod.fst).filter (fun f => decide (f ≠ configName s.Name)))
      ((upgradeCopy true s fs).1) hnames hallp
  have hni : configName s.Name ∉ (s.Files.map Prod.fst).filter
      (fun f => decide (f ≠ configName s.Name)) := by
    intro hmem
    have := List.of_mem_filter hmem
    simp at this
  refine ⟨by rw [hrep]; exact h1snd, by rw [hrep]; exact h2snd, ?_, ?_, ?_⟩
  · intro f
    rw [hrep, h2get]
    by_cases hfm : f ∈ (s.Files.map Prod.fst).filter
        (fun f => decide (f ≠ configName s.Name))
    · rw [if_pos hfm, hrep, h1get, if_pos hfm]
    · rw [if_neg hfm]
  · rw [hrep, h1get, if_neg hni]
  · rw [hrep, h2get, if_neg hni, hrep, h1get, if_neg hni]

/-- Witness for C8 on the bundle `sWcfg` over the local directory
`fsCfg`: both skip-config runs succeed, agree everywhere, and leave the
config untouched. -/
theorem upgrade_skip_idempotent_witness :
    (upgradeCopy true sWcfg fsCfg).2 = none ∧
    (upgradeCopy true sWcfg ((upgradeCopy true sWcfg fsCfg).1)).2 = none ∧
    (upgradeCopy true sWcfg ((upgradeCopy true sWcfg fsCfg).1)).1 readmeName =
      (upgradeCopy true sWcfg fsCfg).1 readmeName ∧
    (upgradeCopy true sWcfg fsCfg).1 (configName fooName) =
      fsCfg (configName fooName) := by
  obtain ⟨a, b, c, d, _⟩ :=
    upgrade_skip_idempotent sWcfg fsCfg (by decide) (by decide)
  exact ⟨a, b, c readmeName, d⟩

/-- C9: the script-name listing of the remote catalog is strictly
ascending in byte-lexicographic order (hence deduplicated), and a name
appears in it iff some remote entry whose path has exactly one `/`
separator derives it; entries with zero or more than one separator never
contribute. -/
theorem scripts_sorted_dedup (gt : githubTree) :
    List.Pairwise (fun a b => bytesLt a b = true) (scripts gt) ∧
    ∀ name : Bytes, name ∈ scripts gt ↔
      ∃ node ∈ gt.Tree, node.Path.count sepByte = 1 ∧
        (nodeSplit node).1 = name := by
  have hperm := List.perm_insertionSort bytesLeR
    (((gt.Tree.filter isScript).map (fun n => (nodeSplit n).1)).dedup)
  have hsorted := List.sorted_insertionSort bytesLeR
    (((gt.Tree.filter isScript).map (fun n => (nodeSplit n).1)).dedup)
  have hnodup : (scripts gt).Nodup := by
    unfold scripts
    exact hperm.nodup_iff.mpr (List.nodup_dedup _)
  constructor
  · have hs : List.Pairwise bytesLeR (scripts gt) := hsorted
    exact (hs.and hnodup).imp (fun h => bytesLt_of_le_ne h.1 h.2)
  · intro name
    unfold scripts
    rw [hperm.mem_iff, List.mem_dedup]
    constructor
    · intro h
      obtain ⟨n, hn, hname⟩ := List.mem_map.mp h
      have hf := List.mem_filter.mp hn
      refine ⟨n, hf.1, ?_, hname⟩
      have : isScript n = true := hf.2
      simpa [isScript] using this
    · rintro ⟨n, hn, hcount, hname⟩
      exact List.mem_map.mpr
        ⟨n, List.mem_filter.mpr ⟨hn, by simpa [isScript] using hcount⟩, hname⟩

/-- C7 (amended): for a README in which the `Description` heading occurs
exactly once (first at index `i`, with no further occurrence after it)
and a triple newline follows it (first at offset `j` after the heading),
`readDescription` returns the whitespace-trimmed text between the
heading and that triple newline.  When the heading occurs again, the
examined segment stops at the second occurrence instead. -/
theorem readDescription_extracts (readme : Bytes) (i j : Nat)
    (hi : firstIndexOfSeq descMarker readme = some i)
    (hone : firstIndexOfSeq descMarker (readme.drop (i + descMarker.length)) = none)
    (hj : firstIndexOfSeq tripleNewline (readme.drop (i + descMarker.length)) = some j) :
    readDescription readme =
      some (trimSpace ((readme.drop (i + descMarker.length)).take j)) := by
  have hm : descMarker ≠ [] := by decide
  have ht : tripleNewline ≠ [] := by decide
  simp only [readDescription]
  rw [splitSeq_of_some hm hi, splitSeq_of_none hm hone]
  simp only [List.getElem?_cons_succ, List.getElem?_cons_zero]
  rw [splitSeq_of_some ht hj]
  simp only [List.getElem?_cons_zero]

/-- Witness for C7 on `wReadme` (heading at index 1, triple newline 3
bytes after the heading): the extracted description is `hi`. -/
theorem readDescription_extracts_witness :
    firstIndexOfSeq descMarker wReadme = some 1 ∧
    readDescription wReadme = some [104, 105] := by
  refine ⟨by decide, ?_⟩
  have h := readDescription_extracts wReadme 1 3 (by decide) (by decide) (by decide)
  rw [h]
  decide

/-- Counterexample for C7 as stated over every README: in `cxReadme` the
heading first occurs at index 0 and the first triple newline after it is
at offset 26, but `readDescription` does not return the trimmed text
between them — the second heading occurrence truncates the segment. -/
theorem readDescription_second_marker_cx :
    firstIndexOfSeq descMarker cxReadme = some 0 ∧
    firstIndexOfSeq tripleNewline (cxReadme.drop (0 + descMarker.length)) =
      some 26 ∧
    readDescription cxReadme ≠
      some (trimSpace ((cxReadme.drop (0 + descMarker.length)).take 26)) := by
  refine ⟨by decide, by decide, by decide⟩

/-- C4: `download` records an optional file whose fetch returned absent
(HTTP status 400 or above) as an absent entry without failing — only the
two mandatory files are checked — but the copy step of install/upgrade
then stops the program fatally with the `BUG` message on that very
entry: the absence is surfaced as an error after all. -/
theorem optional_absent_surfaces_as_bug :
    download gtC4 fooName fetchC4 = .ok sC4 ∧
    mapGet sC4.Files extraName = none ∧
    (upgradeCopy false sC4 emptyFs).2 = some bugMsg ∧
    (install gtC4 [] fooName fetchC4).2 = some bugMsg := by
  refine ⟨by rfl, by decide, by decide, by decide⟩

end WingoContrib
